import Mathlib

/-!
Verification of the digit-codec core of
src/syft/frameworks/torch/tensors/interpreters/large_precision_tensor.py
(class LargePrecisionTensor).

Modelling choices:
* Python integers are `ℤ`; the numeric values held by the input tensor are
  modelled as exact rationals `ℚ` (real-arithmetic model of the float
  computation; the final astype(float32) narrowing is elided).
* The digit tensor (the value of self.child after fix) is modelled as a
  `List (List ℤ)`: the list of positions along the leading axes, each holding
  the digit row along the trailing axis.  For the axis-sensitive restore
  claim a three-dimensional `List (List (List ℤ))` model is used as well.
* The while-loop of _split_number is given an explicit fuel parameter;
  `none` means the loop has not finished within the given fuel.  Lemmas below
  show the canonical fuel `n.natAbs` suffices whenever the Python loop
  terminates, so `none` at that fuel models genuine non-termination.
* torch elementwise `+` and `==` are modelled with the host broadcasting
  rule for the modelled ranks: two axes are compatible when equal or when
  one of them has size 1 (the size-1 operand is repeated).
* The torch.IntTensor storage cast at the end of _create_internal_tensor is
  elided; digits are kept as unbounded integers.
-/

/-- Model of the body of the while-loop in _split_number:
while number: number, part = divmod(number, base); number_parts.append(part).
Python divmod is floor division, i.e. Int.fdiv / Int.fmod.  The fuel bounds
the number of iterations; none = the loop did not exit within the fuel. -/
def splitLoop (base : ℤ) : ℕ → ℤ → List ℤ → Option (List ℤ)
  | 0, number, acc => if number = 0 then some acc else none
  | fuel + 1, number, acc =>
    if number = 0 then some acc
    else splitLoop base fuel (number.fdiv base) (acc ++ [number.fmod base])

/-- Model of LargePrecisionTensor._split_number.  Mirrors the source:
if not number: return [number]; then the divmod loop with base = 2 ** bits,
returning number_parts[::-1] (most-significant digit first). -/
def splitNumber (number : ℤ) (bits : ℕ) (fuel : ℕ) : Option (List ℤ) :=
  if number = 0 then some [number]
  else (splitLoop ((2 : ℤ) ^ bits) fuel number []).map List.reverse

/-- Accumulating fold n = n * base + x over the list in order; this is the
for-loop of _restore_number_np. -/
def restoreLoop (base : ℤ) : List ℤ → ℤ → ℤ
  | [], n => n
  | x :: xs, n => restoreLoop base xs (n * base + x)

/-- Model of the while-loop of _restore_number: while number_parts:
n = n * base + number_parts.pop() (pop removes the last element). -/
def popAccum (base : ℤ) (parts : List ℤ) (n : ℤ) : ℤ :=
  if h : parts = [] then n
  else popAccum base parts.dropLast (n * base + parts.getLast h)
  termination_by parts.length
  decreasing_by
    have hpos : 0 < parts.length := List.length_pos.mpr h
    simp only [List.length_dropLast]
    omega

/-- Model of LargePrecisionTensor._restore_number: the parts are reversed
first, then consumed by popping from the end. -/
def restoreNumber (number_parts : List ℤ) (bits : ℕ) : ℤ :=
  popAccum ((2 : ℤ) ^ bits) number_parts.reverse 0

/-- Model of LargePrecisionTensor._restore_number_np: a plain left fold
n = n * base + x over the row in order. -/
def restoreNumberNp (number_parts : List ℤ) (bits : ℕ) : ℤ :=
  restoreLoop ((2 : ℤ) ^ bits) number_parts 0

/-- Python int() applied to a (here: exact rational) value truncates toward
zero; on the reduced fraction num/den this is the truncating integer
division of the numerator by the denominator. -/
def truncQ (q : ℚ) : ℤ := q.num.tdiv q.den

/-- Digit rows for a list of already scaled-and-truncated integers: the
result.append(_split_number(n, precision)) part of the accumulation loop of
_create_internal_tensor.  Each split gets the canonical fuel n.natAbs, which
is sufficient whenever the Python loop terminates; none therefore models an
element whose split never returns. -/
def rowsFromInts : List ℤ → ℕ → Option (List (List ℤ))
  | [], _ => some []
  | n :: rest, precision =>
    match splitNumber n precision n.natAbs, rowsFromInts rest precision with
    | some row, some rows => some (row :: rows)
    | _, _ => none

/-- Model of the accumulation loop of _create_internal_tensor:
for x in np.nditer(tensor): result.append(_split_number(int(x * 2 ** virtual_prec), precision)). -/
def buildRows (tensor : List ℚ) (precision virtual_prec : ℕ) : Option (List (List ℤ)) :=
  rowsFromInts (tensor.map fun x => truncQ (x * 2 ^ virtual_prec)) precision

/-- Model of len(max(result, key=len)): the maximal row length. -/
def maxRowLen (rows : List (List ℤ)) : ℕ :=
  rows.foldl (fun m r => max m r.length) 0

/-- Model of LargePrecisionTensor._create_internal_tensor on a flat input
tensor of shape (k,).  After the accumulation loop the source computes
new_shape = tensor.shape + (L,) with L = len(max(result, key=len)) and runs
np.array(result).reshape(new_shape).  np.array of k equal-length rows gives a
(k, L) array and the reshape is the identity; for ragged rows np.array gives
an object array of shape (k,) and reshape raises ValueError (max([]) raises
on an empty input).  none models the raising paths. -/
def createInternalTensor (tensor : List ℚ) (precision virtual_prec : ℕ) : Option (List (List ℤ)) :=
  (buildRows tensor precision virtual_prec).bind fun result =>
    if result.isEmpty then none
    else if result.all fun r => r.length = maxRowLen result then some result
    else none

/-- Shape[-1] of the modelled two-dimensional tensor (rectangularity is a
hypothesis of the theorems that use this). -/
def lastDim (t : List (List ℤ)) : ℕ := (t.headD []).length

/-- Model of LargePrecisionTensor._adjust_to_shape with fill_value = 0:
prepends diff_dim = shape[-1] - to_adjust.shape[-1] zero digits to every row
(torch.cat of a zero block along the last axis). -/
def adjustToShape (toAdjust : List (List ℤ)) (lastLen : ℕ) : List (List ℤ) :=
  let diffDim := lastLen - lastDim toAdjust
  toAdjust.map fun row => List.replicate diffDim 0 ++ row

/-- Host-library broadcasting along one axis: sizes are compatible when they
are equal or when one side has size 1, in which case that side is repeated;
otherwise the host operation raises (none). -/
def broadcastPair {α β : Type} (a : List α) (b : List β) : Option (List (α × β)) :=
  if a.length = b.length then some (a.zip b)
  else
    match a, b with
    | [x], ys => some (ys.map fun y => (x, y))
    | xs, [y] => some (xs.map fun x => (x, y))
    | _, _ => none

/-- Row-by-row application of a broadcast binary operation to paired rows;
the loop body of the host elementwise operation. -/
def rowArith {γ : Type} (f : ℤ → ℤ → γ) : List (List ℤ × List ℤ) → Option (List (List γ))
  | [] => some []
  | rr :: rest =>
    match broadcastPair rr.1 rr.2, rowArith f rest with
    | some ps, some acc => some (ps.map (fun p => f p.1 p.2) :: acc)
    | _, _ => none

/-- Elementwise binary host operation on two modelled 2-D tensors, with
broadcasting on both axes. -/
def elementwise2 {γ : Type} (f : ℤ → ℤ → γ) (a b : List (List ℤ)) : Option (List (List γ)) :=
  (broadcastPair a b).bind fun rows => rowArith f rows

/-- Host elementwise tensor addition (torch +). -/
def tensorAdd (a b : List (List ℤ)) : Option (List (List ℤ)) :=
  elementwise2 (· + ·) a b

/-- Host elementwise tensor equality (torch ==), returning a boolean tensor. -/
def tensorEq (a b : List (List ℤ)) : Option (List (List Bool)) :=
  elementwise2 (fun m n => m == n) a b

/-- Model of the body of LargePrecisionTensor.add on the two child tensors:
compare shape[-1], pad the operand with the shorter trailing axis via
_adjust_to_shape, then host elementwise +. -/
def addChild (a b : List (List ℤ)) : Option (List (List ℤ)) :=
  if lastDim a ≠ lastDim b then
    if lastDim a < lastDim b then tensorAdd (adjustToShape a (lastDim b)) b
    else tensorAdd (adjustToShape b (lastDim a)) a
  else tensorAdd a b

/-- Model of the LargePrecisionTensor wrapper state: precision, virtual_prec
and the owned digit tensor (self.child after fix). -/
structure LargePrecisionTensor where
  precision : ℕ
  virtual_prec : ℕ
  child : List (List ℤ)
  deriving DecidableEq, Repr

/-- Model of LargePrecisionTensor.add: combine the children and wrap the
result with the precision and virtual_prec taken from self. -/
def LargePrecisionTensor.add (x y : LargePrecisionTensor) : Option LargePrecisionTensor :=
  (addChild x.child y.child).map fun c =>
    { precision := x.precision, virtual_prec := x.virtual_prec, child := c }

/-- Model of LargePrecisionTensor.__iadd__: self.child is replaced by the
child of self.add(other); identity (precision, virtual_prec) is kept. -/
def LargePrecisionTensor.iadd (x y : LargePrecisionTensor) : Option LargePrecisionTensor :=
  (LargePrecisionTensor.add x y).map fun r => { x with child := r.child }

/-- Model of LargePrecisionTensor.__eq__: self.child == other.child, which is
the host elementwise comparison returning a boolean tensor. -/
def LargePrecisionTensor.eq (x y : LargePrecisionTensor) : Option (List (List Bool)) :=
  tensorEq x.child y.child

/-- Model of fix_large_precision: self.child becomes the internal digit
tensor built by _create_internal_tensor. -/
def fixLargePrecision (tensor : List ℚ) (precision virtual_prec : ℕ) : Option LargePrecisionTensor :=
  (createInternalTensor tensor precision virtual_prec).map fun c =>
    { precision := precision, virtual_prec := virtual_prec, child := c }

/-- Model of restore_precision on a 2-D child of shape (k, L):
np.apply_along_axis(_restore_number_np, 1, child) decodes each row (axis 1 is
the trailing axis here), and the result is divided by 2 ** virtual_prec. -/
def restorePrecision (child : List (List ℤ)) (precision virtual_prec : ℕ) : List ℚ :=
  (child.map fun row => restoreNumberNp row precision).map fun (n : ℤ) =>
    (n : ℚ) / 2 ^ virtual_prec

/-- Transposition of a rectangular nested list, used to model the numpy
slices arr[i, :, k] (the columns of each plane). -/
def transposeL {α : Type} : List (List α) → List (List α)
  | [] => []
  | [r] => r.map fun x => [x]
  | r :: rs => List.zipWith (· :: ·) r (transposeL rs)

/-- Model of restore_precision on a 3-D child of shape (I, J, K):
np.apply_along_axis(f, 1, arr) applies f to the slices arr[i, :, k], i.e. to
the columns of each plane, so result[i][k] = f(arr[i, :, k]); axis 1 is not
the trailing axis here. -/
def restorePrecision3 (child : List (List (List ℤ))) (precision virtual_prec : ℕ) :
    List (List ℚ) :=
  child.map fun plane =>
    (transposeL plane).map fun col => (restoreNumberNp col precision : ℚ) / 2 ^ virtual_prec

/-- Spec-side definition for the restore refinement comparison, following the
spec words: for each index along the leading axes take the digit row along
the trailing axis, decode it with the digit codec and divide by
2 ** virtual_prec. -/
def restoreTrailing3 (child : List (List (List ℤ))) (precision virtual_prec : ℕ) :
    List (List ℚ) :=
  child.map fun plane =>
    plane.map fun row => (restoreNumber row precision : ℚ) / 2 ^ virtual_prec

/-- an all-true boolean tensor (every comparison succeeded). -/
def allTrue (t : List (List Bool)) : Bool :=
  t.all fun row => row.all id

/-- the decidable statement that every digit of the tensor lies in
[0, 2 ^ precision). -/
def digitsInRange (rows : List (List ℤ)) (precision : ℕ) : Bool :=
  rows.all fun row => row.all fun d => decide (0 ≤ d) && decide (d < 2 ^ precision)

/-! Lemma layer: facts about the codec loops. -/

theorem restoreLoop_append (b : ℤ) (l₁ l₂ : List ℤ) (n : ℤ) :
    restoreLoop b (l₁ ++ l₂) n = restoreLoop b l₂ (restoreLoop b l₁ n) := by
  induction l₁ generalizing n with
  | nil => simp [restoreLoop]
  | cons x xs ih => simp [restoreLoop, ih]

theorem popAccum_eq_restoreLoop (b : ℤ) (l : List ℤ) (n : ℤ) :
    popAccum b l n = restoreLoop b l.reverse n := by
  induction l using List.reverseRecOn generalizing n with
  | nil => rw [popAccum]; simp [restoreLoop]
  | append_singleton l' a ih =>
    rw [popAccum]
    have hne : l' ++ [a] ≠ [] := by simp
    simp only [hne, dif_neg, List.dropLast_concat, List.getLast_concat]
    rw [ih, List.reverse_append]
    simp [restoreLoop]

theorem restoreNumber_eq_np (parts : List ℤ) (bits : ℕ) :
    restoreNumber parts bits = restoreNumberNp parts bits := by
  unfold restoreNumber restoreNumberNp
  rw [popAccum_eq_restoreLoop, List.reverse_reverse]

theorem splitLoop_acc (b : ℤ) :
    ∀ (fuel : ℕ) (n : ℤ) (acc : List ℤ),
      splitLoop b fuel n acc = (splitLoop b fuel n []).map (acc ++ ·) := by
  intro fuel
  induction fuel with
  | zero =>
    intro n acc
    by_cases h : n = 0 <;> simp [splitLoop, h]
  | succ fuel ih =>
    intro n acc
    by_cases h : n = 0
    · simp [splitLoop, h]
    · simp only [splitLoop, h, if_neg, if_false]
      rw [ih (n.fdiv b) (acc ++ [n.fmod b]), ih (n.fdiv b) ([] ++ [n.fmod b])]
      cases splitLoop b fuel (n.fdiv b) [] <;> simp

theorem splitLoop_none_neg {b : ℤ} (hb : 0 < b) :
    ∀ (fuel : ℕ) (n : ℤ) (acc : List ℤ), n < 0 → splitLoop b fuel n acc = none := by
  intro fuel
  induction fuel with
  | zero => intro n acc hn; simp [splitLoop, hn.ne]
  | succ fuel ih =>
    intro n acc hn
    have hq : n.fdiv b < 0 := Int.fdiv_neg' hn hb
    simp only [splitLoop, hn.ne, if_neg, if_false]
    exact ih _ _ hq

theorem splitLoop_none_one :
    ∀ (fuel : ℕ) (n : ℤ) (acc : List ℤ), n ≠ 0 → splitLoop 1 fuel n acc = none := by
  intro fuel
  induction fuel with
  | zero => intro n acc hn; simp [splitLoop, hn]
  | succ fuel ih =>
    intro n acc hn
    simp only [splitLoop, hn, if_neg, if_false, Int.fdiv_one]
    exact ih _ _ hn

theorem splitLoop_digits {b : ℤ} (hb : 0 < b) :
    ∀ (fuel : ℕ) (n : ℤ) (acc ds : List ℤ),
      splitLoop b fuel n acc = some ds → ∀ d ∈ ds, d ∈ acc ∨ (0 ≤ d ∧ d < b) := by
  intro fuel
  induction fuel with
  | zero =>
    intro n acc ds h d hd
    by_cases hn : n = 0
    · simp [splitLoop, hn] at h
      exact Or.inl (h ▸ hd)
    · simp [splitLoop, hn] at h
  | succ fuel ih =>
    intro n acc ds h d hd
    by_cases hn : n = 0
    · simp [splitLoop, hn] at h
      exact Or.inl (h ▸ hd)
    · simp only [splitLoop, hn, if_neg, if_false] at h
      rcases ih _ _ _ h d hd with hmem | hrange
      · rcases List.mem_append.mp hmem with hacc | hlastd
        · exact Or.inl hacc
        · refine Or.inr ?_
          have : d = n.fmod b := by simpa using hlastd
          subst this
          exact ⟨Int.fmod_nonneg' n hb, Int.fmod_lt_of_pos n hb⟩
      · exact Or.inr hrange

theorem fdiv_decrease {b n : ℤ} (hb : 2 ≤ b) (hn : 0 < n) :
    0 ≤ n.fdiv b ∧ n.fdiv b < n := by
  have hb0 : (0 : ℤ) ≤ b := by omega
  have hq0 : 0 ≤ n.fdiv b := Int.fdiv_nonneg hn.le hb0
  have hmod := Int.fmod_add_fdiv n b
  have hr0 : 0 ≤ n.fmod b := Int.fmod_nonneg' n (by omega)
  have h2q : 2 * n.fdiv b ≤ b * n.fdiv b :=
    mul_le_mul_of_nonneg_right hb hq0
  refine ⟨hq0, ?_⟩
  nlinarith [hmod, hr0, h2q]

theorem splitLoop_spec {b : ℤ} (hb : 2 ≤ b) :
    ∀ (fuel : ℕ) (n : ℤ), 0 ≤ n → n.toNat ≤ fuel →
      ∃ ds, splitLoop b fuel n [] = some ds ∧ restoreLoop b ds.reverse 0 = n := by
  intro fuel
  induction fuel with
  | zero =>
    intro n hn hfuel
    have hn0 : n = 0 := by omega
    subst hn0
    exact ⟨[], by simp [splitLoop], by simp [restoreLoop]⟩
  | succ fuel ih =>
    intro n hn hfuel
    by_cases h0 : n = 0
    · subst h0
      exact ⟨[], by simp [splitLoop], by simp [restoreLoop]⟩
    · have hnpos : 0 < n := lt_of_le_of_ne hn (Ne.symm h0)
      obtain ⟨hq0, hqlt⟩ := fdiv_decrease hb hnpos
      have hqfuel : (n.fdiv b).toNat ≤ fuel := by omega
      obtain ⟨ds', hds', hrest'⟩ := ih (n.fdiv b) hq0 hqfuel
      refine ⟨n.fmod b :: ds', ?_, ?_⟩
      · simp only [splitLoop, h0, if_neg, if_false]
        rw [splitLoop_acc b fuel (n.fdiv b) ([] ++ [n.fmod b]), hds']
        simp
      · have hmod := Int.fmod_add_fdiv n b
        simp only [List.reverse_cons]
        rw [restoreLoop_append, hrest']
        simp only [restoreLoop]
        linarith [hmod, mul_comm (n.fdiv b) b]

theorem two_le_two_pow {bits : ℕ} (hbits : 0 < bits) : (2 : ℤ) ≤ 2 ^ bits := by
  calc (2 : ℤ) = 2 ^ 1 := (pow_one 2).symm
  _ ≤ 2 ^ bits := pow_le_pow_right₀ (by norm_num) hbits

theorem splitNumber_roundtrip_np (n : ℤ) (bits fuel : ℕ) (hn : 0 ≤ n) (hbits : 0 < bits)
    (hfuel : n.natAbs ≤ fuel) :
    ∃ parts, splitNumber n bits fuel = some parts ∧ restoreNumberNp parts bits = n := by
  by_cases h0 : n = 0
  · subst h0
    exact ⟨[0], by simp [splitNumber], by simp [restoreNumberNp, restoreLoop]⟩
  · have hb : (2 : ℤ) ≤ 2 ^ bits := two_le_two_pow hbits
    have htn : n.toNat ≤ fuel := by omega
    obtain ⟨ds, hds, hrest⟩ := splitLoop_spec hb fuel n hn htn
    refine ⟨ds.reverse, ?_, ?_⟩
    · simp [splitNumber, h0, hds]
    · simpa [restoreNumberNp] using hrest

theorem splitNumber_digits {n : ℤ} {bits fuel : ℕ} {parts : List ℤ}
    (h : splitNumber n bits fuel = some parts) :
    ∀ d ∈ parts, 0 ≤ d ∧ d < 2 ^ bits := by
  have hb : (0 : ℤ) < 2 ^ bits := pow_pos (by norm_num) bits
  by_cases h0 : n = 0
  · subst h0
    simp [splitNumber] at h
    intro d hd
    rw [← h] at hd
    simp only [List.mem_singleton] at hd
    subst hd
    exact ⟨le_refl 0, hb⟩
  · simp only [splitNumber, h0, if_neg, if_false, Option.map_eq_some'] at h
    obtain ⟨ds, hds, hrev⟩ := h
    intro d hd
    rw [← hrev] at hd
    rw [List.mem_reverse] at hd
    rcases splitLoop_digits hb fuel n [] ds hds d hd with hmem | hrange
    · simp at hmem
    · exact hrange

/-- C2: for every non-negative integer n and every bits > 0, restoring the
digit sequence produced by _split_number with the same bits via
_restore_number yields n exactly.  The fuel makes the while-loop explicit;
n.natAbs iterations always suffice for non-negative n. -/
theorem claim_C2_split_restore_roundtrip (n : ℤ) (bits fuel : ℕ)
    (hn : 0 ≤ n) (hbits : 0 < bits) (hfuel : n.natAbs ≤ fuel) :
    (splitNumber n bits fuel).map (fun parts => restoreNumber parts bits) = some n := by
  obtain ⟨parts, hsplit, hrest⟩ := splitNumber_roundtrip_np n bits fuel hn hbits hfuel
  rw [hsplit]
  simp only [Option.map_some', Option.some_inj]
  rw [restoreNumber_eq_np]
  exact hrest

/-- C2 witness: the roundtrip at n = 5, bits = 1. -/
theorem claim_C2_witness :
    (splitNumber 5 1 5).map (fun parts => restoreNumber parts 1) = some 5 :=
  claim_C2_split_restore_roundtrip 5 1 5 (by decide) (by decide) (by decide)

/-- C10: for every strictly negative number and every bits > 0, the divmod
loop of _split_number never terminates: the floor-division quotient stays
negative forever (stabilising at -1), so no amount of fuel makes the loop
exit. -/
theorem claim_C10_split_negative_diverges (n : ℤ) (bits fuel : ℕ)
    (hn : n < 0) (hbits : 0 < bits) : splitNumber n bits fuel = none := by
  have hb : (0 : ℤ) < 2 ^ bits := pow_pos (by norm_num) bits
  simp only [splitNumber, hn.ne, if_neg, if_false]
  rw [splitLoop_none_neg hb fuel n [] hn]
  rfl

/-- C10 witness: splitting -1 with bits = 1 returns within no fuel bound. -/
theorem claim_C10_witness : splitNumber (-1) 1 5 = none :=
  claim_C10_split_negative_diverges (-1) 1 5 (by decide) (by decide)

/-- C7 counterexample: the claim says every call with bits <= 0 fails with
InvalidArgument, but _split_number performs no validation at all: with
value 0 and bits = 0 it returns [0] normally (the early return for a falsy
number precedes any use of bits). -/
theorem claim_C7_counterexample : splitNumber 0 0 5 = some [0] := by decide

/-- C7 amended: _split_number does not validate bits and never raises; for
value 0 it returns [0] for any bits (including bits = 0), and for a nonzero
value with bits = 0 the divmod loop never terminates, because the quotient
divmod(n, 1)[0] = n never changes. -/
theorem claim_C7_amended :
    (∀ bits fuel : ℕ, splitNumber 0 bits fuel = some [0]) ∧
    (∀ (n : ℤ) (fuel : ℕ), n ≠ 0 → splitNumber n 0 fuel = none) := by
  constructor
  · intro bits fuel
    simp [splitNumber]
  · intro n fuel hn
    simp only [splitNumber, hn, if_neg, if_false, pow_zero]
    rw [splitLoop_none_one fuel n [] hn]
    rfl

/-- C7 amended witness: the zero early return at bits = 7 and the stuck loop
at value 5, bits = 0. -/
theorem claim_C7_witness :
    splitNumber 0 7 9 = some [0] ∧ splitNumber 5 0 9 = none :=
  ⟨claim_C7_amended.1 7 9, claim_C7_amended.2 5 9 (by decide)⟩

theorem truncQ_eq_floor {q : ℚ} (hq : 0 ≤ q) : truncQ q = ⌊q⌋ := by
  unfold truncQ
  rw [Rat.floor_def]
  exact Int.tdiv_eq_ediv (Rat.num_nonneg.mpr hq) (Int.ofNat_nonneg _)

theorem truncQ_nonneg {q : ℚ} (hq : 0 ≤ q) : 0 ≤ truncQ q := by
  rw [truncQ_eq_floor hq]
  exact Int.floor_nonneg.mpr hq

theorem rowsFromInts_forall₂ {ns : List ℤ} {p : ℕ} {rows : List (List ℤ)}
    (h : rowsFromInts ns p = some rows) :
    List.Forall₂ (fun n row => splitNumber n p n.natAbs = some row) ns rows := by
  induction ns generalizing rows with
  | nil =>
    simp only [rowsFromInts, Option.some_inj] at h
    subst h
    exact List.Forall₂.nil
  | cons n rest ih =>
    simp only [rowsFromInts] at h
    split at h
    · rename_i row rows' hs hr
      simp only [Option.some_inj] at h
      subst h
      exact List.Forall₂.cons hs (ih hr)
    · simp at h

theorem forall₂_mem_right {α β : Type} {R : α → β → Prop} {l₁ : List α} {l₂ : List β}
    (h : List.Forall₂ R l₁ l₂) {y : β} (hy : y ∈ l₂) : ∃ x, R x y := by
  induction h with
  | nil => simp at hy
  | cons hR _ ih =>
    rcases List.mem_cons.mp hy with rfl | hy'
    · exact ⟨_, hR⟩
    · exact ih hy'

theorem createInternalTensor_some {xs : List ℚ} {p v : ℕ} {rows : List (List ℤ)}
    (h : createInternalTensor xs p v = some rows) :
    rowsFromInts (xs.map fun x => truncQ (x * 2 ^ v)) p = some rows := by
  unfold createInternalTensor buildRows at h
  cases hb : rowsFromInts (xs.map fun x => truncQ (x * 2 ^ v)) p with
  | none => rw [hb] at h; simp at h
  | some result =>
    rw [hb] at h
    simp only [Option.some_bind] at h
    split at h
    · simp at h
    · split at h
      · simp only [Option.some_inj] at h
        subst h
        rfl
      · simp at h

/-- C1 (code slip): on the input tensor [1.0, 256.0] with precision 8 and
virtual_prec 0 the accumulation loop produces the ragged digit rows [1] and
[1, 0]; no left padding ever happens, so np.array(result).reshape((2, 2))
raises ValueError instead of returning the padded digit array.  The first
conjunct shows the loop result, the second that _create_internal_tensor does
not return normally. -/
theorem claim_C1_fix_never_pads :
    buildRows [1, 256] 8 0 = some [[1], [1, 0]] ∧
    createInternalTensor [1, 256] 8 0 = none := by
  have hmap : ([(1 : ℚ), 256].map fun x => truncQ (x * 2 ^ (0 : ℕ))) = [1, 256] := by
    norm_num [truncQ]
  constructor
  · unfold buildRows
    rw [hmap]
    decide
  · unfold createInternalTensor buildRows
    rw [hmap]
    decide

/-- C3 counterexample: starting from a PrecisionArray produced by fix on
[255.0] (precision 8, virtual_prec 0, digits [[255]]), add yields the digit
510, which is not below 2 ^ 8: the range invariant does not survive the
non-carrying addition. -/
theorem claim_C3_counterexample :
    ((fixLargePrecision [255] 8 0).bind fun t => t.add t) =
      some ⟨8, 0, [[510]]⟩ ∧ ¬((510 : ℤ) < 2 ^ 8) := by
  have hmap : ([(255 : ℚ)].map fun x => truncQ (x * 2 ^ (0 : ℕ))) = [255] := by
    norm_num [truncQ]
  have hc : createInternalTensor [(255 : ℚ)] 8 0 = some [[255]] := by
    unfold createInternalTensor buildRows
    rw [hmap]
    decide
  have hf : fixLargePrecision [(255 : ℚ)] 8 0 = some ⟨8, 0, [[255]]⟩ := by
    simp [fixLargePrecision, hc]
  constructor
  · rw [hf]
    decide
  · decide

/-- C3 amended: every digit of the internal tensor produced by fix lies in
[0, 2 ^ precision); the analogous statement for add fails (see the
counterexample), because digit addition does not carry. -/
theorem claim_C3_fix_digits_in_range (xs : List ℚ) (p v : ℕ) (rows : List (List ℤ))
    (h : createInternalTensor xs p v = some rows) :
    digitsInRange rows p = true := by
  have hf := rowsFromInts_forall₂ (createInternalTensor_some h)
  unfold digitsInRange
  rw [List.all_eq_true]
  intro row hrow
  rw [List.all_eq_true]
  intro d hd
  obtain ⟨n, hsp⟩ := forall₂_mem_right hf hrow
  obtain ⟨h1, h2⟩ := splitNumber_digits hsp d hd
  simp [h1, h2]

/-- C3 amended witness: fix on [2.0, 3.0] with precision 1 gives digit rows
[[1, 0], [1, 1]], all digits in [0, 2). -/
theorem claim_C3_witness : digitsInRange [[1, 0], [1, 1]] 1 = true := by
  have hmap : ([(2 : ℚ), 3].map fun x => truncQ (x * 2 ^ (0 : ℕ))) = [2, 3] := by
    norm_num [truncQ]
  refine claim_C3_fix_digits_in_range [2, 3] 1 0 [[1, 0], [1, 1]] ?_
  unfold createInternalTensor buildRows
  rw [hmap]
  decide

theorem restore_scalar_bound (x : ℚ) (v : ℕ) (hx : 0 ≤ x) :
    |((truncQ (x * 2 ^ v) : ℤ) : ℚ) / 2 ^ v - x| ≤ ((2 : ℚ) ^ v)⁻¹ := by
  have h2 : (0 : ℚ) < 2 ^ v := by positivity
  have hxv : 0 ≤ x * 2 ^ v := mul_nonneg hx h2.le
  rw [truncQ_eq_floor hxv]
  have h1 : ((⌊x * 2 ^ v⌋ : ℤ) : ℚ) ≤ x * 2 ^ v := Int.floor_le _
  have h1' : x * 2 ^ v < (⌊x * 2 ^ v⌋ : ℤ) + 1 := Int.lt_floor_add_one _
  have hinv : (0 : ℚ) ≤ ((2 : ℚ) ^ v)⁻¹ := by positivity
  rw [abs_le]
  constructor
  · have hlt : x < (((⌊x * 2 ^ v⌋ : ℤ) : ℚ) + 1) / 2 ^ v := by
      rw [lt_div_iff₀ h2]
      linarith
    have hsplit : (((⌊x * 2 ^ v⌋ : ℤ) : ℚ) + 1) / 2 ^ v =
        ((⌊x * 2 ^ v⌋ : ℤ) : ℚ) / 2 ^ v + ((2 : ℚ) ^ v)⁻¹ := by
      rw [add_div, one_div]
    linarith [hsplit ▸ hlt]
  · have hle : ((⌊x * 2 ^ v⌋ : ℤ) : ℚ) / 2 ^ v ≤ x := by
      rw [div_le_iff₀ h2]
      linarith
    linarith

theorem forall₂_get {α β : Type} {R : α → β → Prop} {l₁ : List α} {l₂ : List β}
    (h : List.Forall₂ R l₁ l₂) :
    ∀ (i : ℕ) (h₁ : i < l₁.length) (h₂ : i < l₂.length), R l₁[i] l₂[i] := by
  induction h with
  | nil => intro i h₁; simp at h₁
  | cons hR hrest ih =>
    intro i h₁ h₂
    cases i with
    | zero => simpa using hR
    | succ j => simpa using ih j (by simpa using h₁) (by simpa using h₂)

/-- C5 counterexample: the claim quantifies over every finite input value,
but on the input [-1.0] (precision 8, virtual_prec 4) the scaled integer is
-16 and _split_number never terminates on it, so fix never returns and
restore(fix(x)) recovers nothing. -/
theorem claim_C5_counterexample : createInternalTensor [(-1 : ℚ)] 8 4 = none := by
  have hmap : ([(-1 : ℚ)].map fun x => truncQ (x * 2 ^ (4 : ℕ))) = [-16] := by
    norm_num [truncQ]
  unfold createInternalTensor buildRows
  rw [hmap]
  decide

/-- C5 amended: for every array of nonnegative inputs on which fix returns
(negative inputs make the split loop diverge), restore_precision recovers
each input with absolute error at most 2 ^ (-virtual_prec): the scaled value
is truncated to its floor, decoded exactly by the digit codec, and divided
back by 2 ^ virtual_prec. -/
theorem claim_C5_restore_fix_error_bound (xs : List ℚ) (p v : ℕ) (rows : List (List ℤ))
    (hp : 0 < p) (hxs : ∀ x ∈ xs, 0 ≤ x)
    (h : createInternalTensor xs p v = some rows) :
    List.Forall₂ (fun r x => |r - x| ≤ ((2 : ℚ) ^ v)⁻¹) (restorePrecision rows p v) xs := by
  have hf := rowsFromInts_forall₂ (createInternalTensor_some h)
  have hlen : rows.length = xs.length := by
    have := List.Forall₂.length_eq hf
    simpa using this.symm
  have hrp : (restorePrecision rows p v).length = xs.length := by
    unfold restorePrecision
    rw [List.length_map, List.length_map, hlen]
  apply List.forall₂_of_length_eq_of_get hrp
  intro i hi2 hi
  simp only [List.get_eq_getElem]
  have hirows : i < rows.length := by omega
  have himap : i < (xs.map fun x => truncQ (x * 2 ^ v)).length := by
    simp [hi]
  have hR := forall₂_get hf i himap hirows
  rw [List.getElem_map] at hR
  have hx0 : 0 ≤ xs[i] := hxs _ (List.getElem_mem hi)
  have hn0 : 0 ≤ truncQ (xs[i] * 2 ^ v) := by
    have h2 : (0 : ℚ) ≤ 2 ^ v := by positivity
    exact truncQ_nonneg (mul_nonneg hx0 h2)
  obtain ⟨parts, hsp, hrest⟩ :=
    splitNumber_roundtrip_np (truncQ (xs[i] * 2 ^ v)) p (truncQ (xs[i] * 2 ^ v)).natAbs
      hn0 hp (le_refl _)
  have hparts : parts = rows[i] := by
    rw [hR] at hsp
    exact (Option.some_inj.mp hsp).symm
  have hval : (restorePrecision rows p v)[i] =
      ((truncQ (xs[i] * 2 ^ v) : ℤ) : ℚ) / 2 ^ v := by
    unfold restorePrecision
    simp only [List.getElem_map]
    rw [hparts] at hrest
    rw [hrest]
  rw [hval]
  exact restore_scalar_bound xs[i] v hx0

/-- C5 amended witness: fix then restore on [1.5] with precision 8 and
virtual_prec 4 (digits [[24]]) is within 1/16 of the input. -/
theorem claim_C5_witness :
    List.Forall₂ (fun r x => |r - x| ≤ ((2 : ℚ) ^ 4)⁻¹)
      (restorePrecision [[24]] 8 4) [(3 / 2 : ℚ)] := by
  refine claim_C5_restore_fix_error_bound [(3 / 2 : ℚ)] 8 4 [[24]] (by decide) ?_ ?_
  · intro x hx
    simp only [List.mem_singleton] at hx
    subst hx
    norm_num
  · have hmap : ([(3 / 2 : ℚ)].map fun x => truncQ (x * 2 ^ (4 : ℕ))) = [24] := by
      norm_num [truncQ]
    unfold createInternalTensor buildRows
    rw [hmap]
    decide

/-- C6 amended: on a 2-D digit tensor of shape (k, L) restore_precision
decodes each length-L row with the digit codec (in particular the numpy row
fold agrees with _restore_number) and divides by 2 ^ virtual_prec, producing
one value per row. -/
theorem claim_C6_restore_decodes_rows (child : List (List ℤ)) (p v : ℕ) :
    restorePrecision child p v =
      child.map (fun row => ((restoreNumber row p : ℤ) : ℚ) / 2 ^ v) ∧
    (restorePrecision child p v).length = child.length := by
  constructor
  · simp [restorePrecision, restoreNumber_eq_np, List.map_map, Function.comp]
  · unfold restorePrecision
    rw [List.length_map, List.length_map]

/-- C6 counterexample: on the 3-D digit tensor [[[1, 2], [3, 4]]] (original
shape (1, 2) with L = 2, precision 8, virtual_prec 0) restore_precision
decodes along the hard-coded axis 1 and returns [[259, 516]], whereas the
claimed decode along the trailing axis returns [[258, 772]]; the claim fails
for digit arrays of rank at least 3. -/
theorem claim_C6_counterexample :
    restorePrecision3 [[[1, 2], [3, 4]]] 8 0 ≠ restoreTrailing3 [[[1, 2], [3, 4]]] 8 0 := by
  have h1 : restorePrecision3 [[[1, 2], [3, 4]]] 8 0 = [[259, 516]] := by
    norm_num [restorePrecision3, transposeL, restoreNumberNp, restoreLoop]
  have h2 : restoreTrailing3 [[[1, 2], [3, 4]]] 8 0 = [[258, 772]] := by
    norm_num [restoreTrailing3, restoreNumber_eq_np, restoreNumberNp, restoreLoop]
  rw [h1, h2]
  intro hEq
  norm_num at hEq

theorem broadcastPair_eq_len {α β : Type} (a : List α) (b : List β)
    (h : a.length = b.length) : broadcastPair a b = some (a.zip b) := by
  simp [broadcastPair, h]

theorem map_uncurry_zip_eq_zipWith {α β γ : Type} (f : α → β → γ) :
    ∀ (l₁ : List α) (l₂ : List β),
      (l₁.zip l₂).map (fun p => f p.1 p.2) = List.zipWith f l₁ l₂ := by
  intro l₁
  induction l₁ with
  | nil => intro l₂; simp
  | cons x xs ih => intro l₂; cases l₂ <;> simp [ih]

theorem elementwise2_eq_shape {γ : Type} (f : ℤ → ℤ → γ) :
    ∀ (a b : List (List ℤ)), a.length = b.length →
      (∀ ra rb, (ra, rb) ∈ a.zip b → ra.length = rb.length) →
      elementwise2 f a b = some (List.zipWith (fun r s => List.zipWith f r s) a b) := by
  intro a
  induction a with
  | nil =>
    intro b hlen hrows
    cases b with
    | nil => rfl
    | cons s ss => simp at hlen
  | cons r rs ih =>
    intro b hlen hrows
    cases b with
    | nil => simp at hlen
    | cons s ss =>
      have hlen' : rs.length = ss.length := by simpa using hlen
      have hrows' : ∀ ra rb, (ra, rb) ∈ rs.zip ss → ra.length = rb.length := by
        intro ra rb hmem
        exact hrows ra rb (by simp [List.zip_cons_cons, hmem])
      have hhead : r.length = s.length :=
        hrows r s (by simp [List.zip_cons_cons])
      have hIH := ih ss hlen' hrows'
      unfold elementwise2 at hIH ⊢
      rw [broadcastPair_eq_len _ _ hlen'] at hIH
      rw [broadcastPair_eq_len _ _ hlen]
      simp only [Option.some_bind] at hIH ⊢
      rw [List.zip_cons_cons]
      unfold rowArith
      rw [broadcastPair_eq_len _ _ hhead, hIH]
      simp [map_uncurry_zip_eq_zipWith]

theorem zipWith_add_flip (g : List ℤ → List ℤ) :
    ∀ (a b : List (List ℤ)),
      List.zipWith (fun rb ra => List.zipWith (· + ·) (g rb) ra) b a =
      List.zipWith (fun ra rb => List.zipWith (· + ·) ra (g rb)) a b := by
  intro a
  induction a with
  | nil => intro b; cases b <;> simp
  | cons ra ras ih =>
    intro b
    cases b with
    | nil => simp
    | cons rb rbs =>
      simp only [List.zipWith_cons_cons, ih]
      rw [List.zipWith_comm_of_comm (· + ·) (fun x y => Int.add_comm x y) (g rb) ra]

/-- C4: adding two PrecisionArrays sharing precision and virtual_prec whose
digit tensors have the same leading length left-pads the operand with the
shorter trailing axis with zero digits up to the longer length, sums the two
digit tensors elementwise with no carry between digit positions, and wraps
the summed tensor with the operands' precision and virtual_prec. -/
theorem claim_C4_add_pads_and_sums (p v : ℕ) (a b : List (List ℤ)) (la lb : ℕ)
    (hja : lastDim a = la) (hra : ∀ r ∈ a, r.length = la)
    (hjb : lastDim b = lb) (hrb : ∀ r ∈ b, r.length = lb)
    (hlen : a.length = b.length) :
    LargePrecisionTensor.add ⟨p, v, a⟩ ⟨p, v, b⟩ = some ⟨p, v,
      List.zipWith (fun ra rb =>
        List.zipWith (· + ·) (List.replicate (max la lb - la) 0 ++ ra)
          (List.replicate (max la lb - lb) 0 ++ rb)) a b⟩ := by
  have haddChild : addChild a b =
      some (List.zipWith (fun ra rb =>
        List.zipWith (· + ·) (List.replicate (max la lb - la) 0 ++ ra)
          (List.replicate (max la lb - lb) 0 ++ rb)) a b) := by
    rcases Nat.lt_trichotomy la lb with hlt | heq | hgt
    · unfold addChild adjustToShape tensorAdd
      rw [hja, hjb]
      rw [if_pos (Nat.ne_of_lt hlt), if_pos hlt]
      have hmax : max la lb = lb := Nat.max_eq_right hlt.le
      simp only [hmax, Nat.sub_self, List.replicate_zero, List.nil_append]
      have hrows' : ∀ ra rb,
          (ra, rb) ∈ (a.map fun row => List.replicate (lb - la) 0 ++ row).zip b →
          ra.length = rb.length := by
        intro ra rb hmem
        obtain ⟨hmem1, hmem2⟩ := List.of_mem_zip hmem
        obtain ⟨r0, hr0, hval⟩ := List.mem_map.mp hmem1
        subst hval
        have h1 : r0.length = la := hra r0 hr0
        have h2 : rb.length = lb := hrb rb hmem2
        simp [h1, h2]
        omega
      rw [elementwise2_eq_shape _ _ _ (by simpa using hlen) hrows']
      rw [List.zipWith_map_left]
    · subst heq
      unfold addChild tensorAdd
      rw [hja, hjb]
      simp only [ne_eq, not_true_eq_false, if_false, ite_self]
      have hrows' : ∀ ra rb, (ra, rb) ∈ a.zip b → ra.length = rb.length := by
        intro ra rb hmem
        obtain ⟨hmem1, hmem2⟩ := List.of_mem_zip hmem
        rw [hra ra hmem1, hrb rb hmem2]
      rw [elementwise2_eq_shape _ _ _ hlen hrows']
      simp only [Nat.max_self, Nat.sub_self, List.replicate_zero, List.nil_append]
    · unfold addChild adjustToShape tensorAdd
      rw [hja, hjb]
      rw [if_pos (Nat.ne_of_gt hgt), if_neg (by omega)]
      have hmax : max la lb = la := Nat.max_eq_left hgt.le
      simp only [hmax, Nat.sub_self, List.replicate_zero, List.nil_append]
      have hrows' : ∀ rb ra,
          (rb, ra) ∈ (b.map fun row => List.replicate (la - lb) 0 ++ row).zip a →
          rb.length = ra.length := by
        intro rb ra hmem
        obtain ⟨hmem1, hmem2⟩ := List.of_mem_zip hmem
        obtain ⟨r0, hr0, hval⟩ := List.mem_map.mp hmem1
        subst hval
        have h1 : r0.length = lb := hrb r0 hr0
        have h2 : ra.length = la := hra ra hmem2
        simp [h1, h2]
        omega
      rw [elementwise2_eq_shape _ _ _ (by simpa using hlen.symm) hrows']
      rw [List.zipWith_map_left]
      rw [zipWith_add_flip]
  simp [LargePrecisionTensor.add, haddChild]

/-- C4 witness: adding digits [[255]] (length 1) and [[1, 2]] (length 2)
pads the first to [[0, 255]] and sums digitwise to [[1, 257]]. -/
theorem claim_C4_witness :
    LargePrecisionTensor.add ⟨8, 0, [[255]]⟩ ⟨8, 0, [[1, 2]]⟩ =
      some ⟨8, 0, [[1, 257]]⟩ := by
  have h := claim_C4_add_pads_and_sums 8 0 [[255]] [[1, 2]] 1 2
    (by decide) (by decide) (by decide) (by decide) (by decide)
  simpa using h

/-- C8 counterexample: the operands' leading axes differ (1 row versus 2
rows, equal digit length), yet add does not fail: the host elementwise add
broadcasts the single row and a summed PrecisionArray is returned. -/
theorem claim_C8_counterexample :
    LargePrecisionTensor.add ⟨8, 0, [[1, 2]]⟩ ⟨8, 0, [[3, 4], [5, 6]]⟩ =
      some ⟨8, 0, [[4, 6], [6, 8]]⟩ := by decide

/-- C8 amended: add itself performs no leading-axis validation.  When both
operands have at least two rows and their row counts differ (digit lengths
equal), the failure that surfaces is the host elementwise add's shape error;
when either operand has a single row the host broadcasts instead and no
error occurs (see the counterexample). -/
theorem claim_C8_mismatch_fails_in_host (a b : List (List ℤ)) (L : ℕ)
    (hja : lastDim a = L) (hra : ∀ r ∈ a, r.length = L)
    (hjb : lastDim b = L) (hrb : ∀ r ∈ b, r.length = L)
    (ha2 : 1 < a.length) (hb2 : 1 < b.length) (hne : a.length ≠ b.length) :
    addChild a b = none := by
  unfold addChild tensorAdd
  rw [hja, hjb]
  simp only [ne_eq, not_true_eq_false, if_false, ite_self]
  match a, ha2 with
  | x :: x' :: xs, _ =>
    match b, hb2 with
    | y :: y' :: ys, _ =>
      unfold elementwise2 broadcastPair
      rw [if_neg hne]
      rfl

/-- C8 amended witness: two-row and three-row operands with digit length 2
make add fail via the host elementwise add. -/
theorem claim_C8_witness :
    addChild [[1, 2], [3, 4]] [[1, 2], [3, 4], [5, 6]] = none :=
  claim_C8_mismatch_fails_in_host [[1, 2], [3, 4]] [[1, 2], [3, 4], [5, 6]] 2
    (by decide) (by decide) (by decide) (by decide) (by decide) (by decide) (by decide)

theorem zipWith_beq_all {r s : List ℤ} (h : r.length = s.length) :
    ((List.zipWith (fun m n => m == n) r s).all id = true) ↔ r = s := by
  induction r generalizing s with
  | nil =>
    cases s with
    | nil => simp
    | cons y ys => simp at h
  | cons x xs ih =>
    cases s with
    | nil => simp at h
    | cons y ys =>
      have h' : xs.length = ys.length := by simpa using h
      simp [List.all_cons, ih h', beq_iff_eq]

theorem matEq_allTrue {a : List (List ℤ)} :
    ∀ {b : List (List ℤ)}, a.length = b.length →
      (∀ ra rb, (ra, rb) ∈ a.zip b → ra.length = rb.length) →
      ((allTrue (List.zipWith (fun r s => List.zipWith (fun m n => m == n) r s) a b) = true)
        ↔ a = b) := by
  induction a with
  | nil =>
    intro b hlen hrows
    cases b with
    | nil => simp [allTrue]
    | cons s ss => simp at hlen
  | cons r rs ih =>
    intro b hlen hrows
    cases b with
    | nil => simp at hlen
    | cons s ss =>
      have hlen' : rs.length = ss.length := by simpa using hlen
      have hrows' : ∀ ra rb, (ra, rb) ∈ rs.zip ss → ra.length = rb.length := by
        intro ra rb hmem
        exact hrows ra rb (by simp [List.zip_cons_cons, hmem])
      have hhead : r.length = s.length :=
        hrows r s (by simp [List.zip_cons_cons])
      have hrec := ih hlen' hrows'
      simp only [List.zipWith_cons_cons, allTrue, List.all_cons] at hrec ⊢
      rw [Bool.and_eq_true]
      rw [zipWith_beq_all hhead]
      rw [hrec]
      simp

/-- C9 amended: on digit tensors of equal shape, __eq__ returns the host
elementwise comparison tensor (not a scalar boolean), and that tensor is
all-true exactly when the two digit tensors are equal. -/
theorem claim_C9_eq_is_elementwise (x y : LargePrecisionTensor)
    (hlen : x.child.length = y.child.length)
    (hrows : ∀ ra rb, (ra, rb) ∈ x.child.zip y.child → ra.length = rb.length) :
    LargePrecisionTensor.eq x y =
      some (List.zipWith (fun r s => List.zipWith (fun m n => m == n) r s)
        x.child y.child) ∧
    (allTrue (List.zipWith (fun r s => List.zipWith (fun m n => m == n) r s)
        x.child y.child) = true ↔ x.child = y.child) := by
  constructor
  · unfold LargePrecisionTensor.eq tensorEq
    exact elementwise2_eq_shape _ _ _ hlen hrows
  · exact matEq_allTrue hlen hrows

/-- C9 amended witness: comparing the two-digit tensor [[1, 0]] with itself
yields the tensor [[true, true]], all-true since the children are equal. -/
theorem claim_C9_witness :
    LargePrecisionTensor.eq ⟨8, 0, [[1, 0]]⟩ ⟨8, 0, [[1, 0]]⟩ =
      some (List.zipWith (fun r s => List.zipWith (fun m n => m == n) r s)
        ([[1, 0]] : List (List ℤ)) [[1, 0]]) ∧
    (allTrue (List.zipWith (fun r s => List.zipWith (fun m n => m == n) r s)
        ([[1, 0]] : List (List ℤ)) [[1, 0]]) = true ↔
      ([[1, 0]] : List (List ℤ)) = [[1, 0]]) :=
  claim_C9_eq_is_elementwise ⟨8, 0, [[1, 0]]⟩ ⟨8, 0, [[1, 0]]⟩ rfl
    (by intro ra rb hmem
        simp only [List.zip_cons_cons, List.zip_nil_right, List.mem_singleton,
          Prod.mk.injEq] at hmem
        obtain ⟨h1, h2⟩ := hmem
        subst h1
        subst h2
        rfl)

/-- C9 counterexample: two PrecisionArrays built by fix from the identical
input [256.0] (precision 8, virtual_prec 0) do not compare as the boolean
true: __eq__ returns the elementwise tensor [[true, true]] (a two-element
tensor, whose Python truthiness raises rather than being True). -/
theorem claim_C9_counterexample :
    ((fixLargePrecision [256] 8 0).bind fun t => LargePrecisionTensor.eq t t) =
      some [[true, true]] := by
  have hmap : ([(256 : ℚ)].map fun x => truncQ (x * 2 ^ (0 : ℕ))) = [256] := by
    norm_num [truncQ]
  have hc : createInternalTensor [(256 : ℚ)] 8 0 = some [[1, 0]] := by
    unfold createInternalTensor buildRows
    rw [hmap]
    decide
  have hf : fixLargePrecision [(256 : ℚ)] 8 0 = some ⟨8, 0, [[1, 0]]⟩ := by
    simp [fixLargePrecision, hc]
  rw [hf]
  decide
